import Mathlib

/-!
Verification of the `numeric-enum-macro` crate (src/lib.rs).

The crate exports two declarative macros, `numeric_enum!` and
`numeric_enum_ident!`.  Each consumes an enum declaration whose members all
carry explicit values of the chosen numeric representation type, re-emits the
enum, and generates

  * `TryFrom<repr>`: `match value { c0 => Ok(Name::M0), c1 => Ok(Name::M1),
    ..., other => Err(other) }` — the arms are tried in declaration order and
    the fall-through arm returns the rejected input itself;
  * `From<Name>`: `match value { Name::M0 => c0, Name::M1 => c1, ... }`.

Shallow embedding: an expanded declaration is its ordered list of member
values (`List Int`; the representation types `i16`, `i64`, `u8`, `u32` of the
crate all embed into `Int`, and the generated match compares values for exact
equality, with no arithmetic that could overflow).  A member of the emitted
enum is its position in declaration order, so a member of `decl` is a
`Fin decl.length`.  `tryFrom` scans the match arms of the generated
`try_from` in order; `fromEnum` is the generated exhaustive `from` match.
The token-level surface of the member list (relevant to the trailing-comma
rule `$(,)?` of the matcher) is embedded as a small token parser, and the
identifier-value macro as the same scans where each constant name is looked
up in an environment of named constants.
-/

namespace NumericEnumMacro

/-- The generated `fn try_from(value: repr)`: the match arms
`c => Ok(Name::Member)` are tried in declaration order, and the final arm
`other => Err(other)` returns the input unchanged.  The `Ok` payload is the
matched member, identified by its declaration index. -/
def tryFrom : List Int → Int → Except Int Nat
  | [], x => .error x
  | c :: rest, x =>
    if x = c then .ok 0
    else (tryFrom rest x).map (fun i => i + 1)

/-- The generated `fn from(value: Name) -> repr`: the exhaustive match
`Name::Member => c`, one arm per member in declaration order. -/
def fromEnum : (decl : List Int) → Fin decl.length → Int
  | [], m => m.elim0
  | c :: _, ⟨0, _⟩ => c
  | _ :: rest, ⟨i + 1, h⟩ => fromEnum rest ⟨i, Nat.lt_of_succ_lt_succ h⟩

/-- The `try_from` generated by `numeric_enum_ident!`: identical match arms,
but each arm's constant is a named constant resolved through the environment
`env` of previously defined constants. -/
def tryFromIdent (env : String → Int) : List String → Int → Except Int Nat
  | [], x => .error x
  | c :: rest, x =>
    if x = env c then .ok 0
    else (tryFromIdent env rest x).map (fun i => i + 1)

/-- The `from` generated by `numeric_enum_ident!`: each arm returns the value
of the named constant bound to the member. -/
def fromEnumIdent (env : String → Int) :
    (decl : List String) → Fin decl.length → Int
  | [], m => m.elim0
  | c :: _, ⟨0, _⟩ => env c
  | _ :: rest, ⟨i + 1, h⟩ => fromEnumIdent env rest ⟨i, Nat.lt_of_succ_lt_succ h⟩

/-- The `#[repr(i64)] enum Lol { Kek = 14, Wow = 87 }` declaration from the
crate documentation. -/
def LolDecl : List Int := [14, 87]

/-- Member `Lol::Kek` (declaration index 0). -/
def LolKek : Fin LolDecl.length := ⟨0, Nat.succ_pos 1⟩

/-- Member `Lol::Wow` (declaration index 1). -/
def LolWow : Fin LolDecl.length := ⟨1, Nat.lt_succ_self 1⟩

/-- The `#[repr(i16)] pub enum PublicEnum { Zero = 0, Lol = -1 }` declaration
from the crate tests. -/
def PublicEnumDecl : List Int := [0, -1]

/-- Member `PublicEnum::Zero` (declaration index 0). -/
def PublicEnumZero : Fin PublicEnumDecl.length := ⟨0, Nat.succ_pos 1⟩

/-- Member `PublicEnum::Lol` (declaration index 1). -/
def PublicEnumLol : Fin PublicEnumDecl.length := ⟨1, Nat.lt_succ_self 1⟩

/-! Helper lemmas shared by the claim theorems. -/

theorem fromEnum_eq_get : ∀ (decl : List Int) (m : Fin decl.length),
    fromEnum decl m = decl.get m
  | [], m => m.elim0
  | _ :: _, ⟨0, _⟩ => rfl
  | _ :: rest, ⟨i + 1, h⟩ => fromEnum_eq_get rest ⟨i, Nat.lt_of_succ_lt_succ h⟩

theorem tryFrom_mem_indexOf (decl : List Int) (v : Int) (hv : v ∈ decl) :
    tryFrom decl v = .ok (decl.indexOf v) := by
  induction decl with
  | nil => cases hv
  | cons c rest ih =>
    by_cases h : v = c
    · subst h
      simp [tryFrom, List.indexOf_cons]
    · have hv' : v ∈ rest := by
        cases List.mem_cons.mp hv with
        | inl h0 => exact absurd h0 h
        | inr h0 => exact h0
      have hcv : ¬ (c == v) := by
        simp only [beq_iff_eq]
        exact fun h0 => h h0.symm
      simp [tryFrom, h, List.indexOf_cons, hcv, ih hv', Except.map]

theorem nodup_indexOf_get (decl : List Int) (hnd : decl.Nodup)
    (m : Fin decl.length) : decl.indexOf (decl.get m) = m.val := by
  induction decl with
  | nil => exact m.elim0
  | cons c rest ih =>
    match m with
    | ⟨0, _⟩ => simp [List.indexOf_cons]
    | ⟨i + 1, h⟩ =>
      have hi : i < rest.length := Nat.lt_of_succ_lt_succ h
      have hc : c ∉ rest := (List.nodup_cons.mp hnd).1
      have hnd' : rest.Nodup := (List.nodup_cons.mp hnd).2
      have hget : rest.get ⟨i, hi⟩ ∈ rest := List.get_mem rest i hi
      have hne : (c == rest.get ⟨i, hi⟩) = false := by
        simp only [beq_eq_false_iff_ne, ne_eq]
        exact fun h0 => hc (h0 ▸ hget)
      have hih := ih hnd' ⟨i, hi⟩
      simp only [List.get_eq_getElem] at hih hne ⊢
      simp [List.indexOf_cons, hne, hih]

theorem tryFrom_ok_inv (decl : List Int) (x : Int) (i : Nat)
    (h : tryFrom decl x = .ok i) :
    ∃ hi : i < decl.length, decl.get ⟨i, hi⟩ = x := by
  induction decl generalizing i with
  | nil => exact absurd h (by simp [tryFrom])
  | cons c rest ih =>
    by_cases hxc : x = c
    · subst hxc
      simp only [tryFrom, if_pos rfl] at h
      injection h with h0
      subst h0
      exact ⟨Nat.succ_pos _, rfl⟩
    · simp only [tryFrom, if_neg hxc] at h
      cases h0 : tryFrom rest x with
      | error e =>
        rw [h0] at h
        simp [Except.map] at h
      | ok j =>
        rw [h0] at h
        have hij : j + 1 = i := by
          simpa [Except.map] using h
        obtain ⟨hj, hget⟩ := ih j h0
        subst hij
        refine ⟨Nat.succ_lt_succ hj, ?_⟩
        simpa using hget

/-! Token-level model of the member-list surface accepted by the matcher
`$($enum:ident = $constant:expr),* $(,)?`: comma-separated `name = value`
items with an optional trailing comma.  `parseMembers` returns the descriptor
the expansion is built from, or `none` when the matcher rejects the input. -/

inductive Tok where
  | ident : String → Tok
  | eq : Tok
  | num : Int → Tok
  | comma : Tok
deriving DecidableEq

/-- Parses the continuation of a member list: either the end of input, a lone
trailing comma (the `$(,)?` of the matcher), or a comma followed by another
`name = value` item. -/
def parseTail : List Tok → Option (List (String × Int))
  | [] => some []
  | [Tok.comma] => some []
  | Tok.comma :: Tok.ident n :: Tok.eq :: Tok.num v :: rest =>
    (parseTail rest).map (fun ms => (n, v) :: ms)
  | _ => none

/-- Parses a member list as the matcher does: zero or more `name = value`
items separated by commas, with an optional trailing comma. -/
def parseMembers : List Tok → Option (List (String × Int))
  | [] => some []
  | [Tok.comma] => some []
  | Tok.ident n :: Tok.eq :: Tok.num v :: rest =>
    (parseTail rest).map (fun ms => (n, v) :: ms)
  | _ => none

/-- Renders every member after the first, each preceded by its separating
comma and with no trailing comma. -/
def renderSep : List (String × Int) → List Tok
  | [] => []
  | (n, v) :: rest => Tok.comma :: Tok.ident n :: Tok.eq :: Tok.num v :: renderSep rest

/-- Renders a member list without a trailing comma. -/
def renderMembers : List (String × Int) → List Tok
  | [] => []
  | (n, v) :: rest => Tok.ident n :: Tok.eq :: Tok.num v :: renderSep rest

theorem parseTail_renderSep : ∀ ms : List (String × Int),
    parseTail (renderSep ms) = some ms
  | [] => rfl
  | (n, v) :: rest => by
    simp [renderSep, parseTail, parseTail_renderSep rest]

theorem parseTail_renderSep_comma : ∀ ms : List (String × Int),
    parseTail (renderSep ms ++ [Tok.comma]) = some ms
  | [] => rfl
  | (n, v) :: rest => by
    simp [renderSep, parseTail, List.cons_append, parseTail_renderSep_comma rest]

theorem tryFromIdent_eq_tryFrom (env : String → Int) :
    ∀ (decl : List String) (x : Int),
      tryFromIdent env decl x = tryFrom (decl.map env) x
  | [], _ => rfl
  | c :: rest, x => by
    simp only [tryFromIdent, List.map_cons, tryFrom,
      tryFromIdent_eq_tryFrom env rest x]

theorem fromEnumIdent_eq_fromEnum (env : String → Int) :
    ∀ (decl : List String) (m : Fin decl.length)
      (hm : m.val < (decl.map env).length),
      fromEnumIdent env decl m = fromEnum (decl.map env) ⟨m.val, hm⟩
  | [], m, _ => m.elim0
  | _ :: _, ⟨0, _⟩, _ => rfl
  | _ :: rest, ⟨i + 1, h⟩, hm =>
    fromEnumIdent_eq_fromEnum env rest ⟨i, Nat.lt_of_succ_lt_succ h⟩
      (Nat.lt_of_succ_lt_succ hm)

/-- An environment with the two constants `KEK = 0` and `WOW = 1` of the
`numeric_enum_ident!` example in the crate documentation. -/
def KekWowEnv : String → Int := fun s => if s = "KEK" then 0 else 1

/-! The claim theorems. -/

/-- C1: for every enum declared by the macro (a compiled enum has pairwise
distinct discriminant values, which `hnd` records) and every declared member
`m`, converting `m` to its numeric value and back succeeds and yields the
same member: `try_from(from(m)) == Ok(m)`. -/
theorem tryFrom_fromEnum_roundtrip (decl : List Int) (hnd : decl.Nodup)
    (m : Fin decl.length) :
    tryFrom decl (fromEnum decl m) = .ok m.val := by
  rw [fromEnum_eq_get]
  have hmem : decl.get m ∈ decl := List.get_mem decl m.val m.isLt
  rw [tryFrom_mem_indexOf decl _ hmem, nodup_indexOf_get decl hnd m]

/-- Witness for C1 at the documented enum `Lol`: its values are distinct and
the round trip through `Wow` returns `Wow`. -/
theorem tryFrom_fromEnum_roundtrip_witness :
    LolDecl.Nodup ∧ tryFrom LolDecl (fromEnum LolDecl LolWow) = .ok LolWow.val :=
  ⟨by decide, tryFrom_fromEnum_roundtrip LolDecl (by decide) LolWow⟩

/-- C2: for every numeric input `x` equal to no declared member value, the
generated `try_from` returns `Err` carrying exactly the input:
`try_from(x) == Err(x)`. -/
theorem tryFrom_rejects_unmatched (decl : List Int) (x : Int) (hx : x ∉ decl) :
    tryFrom decl x = .error x := by
  induction decl with
  | nil => rfl
  | cons c rest ih =>
    have hxc : x ≠ c := fun h => hx (h ▸ List.mem_cons_self c rest)
    have hxr : x ∉ rest := fun h => hx (List.mem_cons_of_mem c h)
    simp [tryFrom, hxc, ih hxr, Except.map]

/-- Witness for C2: `88` matches no member of `Lol` and `try_from 88`
returns `Err 88`. -/
theorem tryFrom_rejects_unmatched_witness :
    (88 : Int) ∉ LolDecl ∧ tryFrom LolDecl 88 = .error 88 :=
  ⟨by decide, tryFrom_rejects_unmatched LolDecl 88 (by decide)⟩

/-- C3: the generated `from` is total — it is defined on every member (it is
a total function of `Fin decl.length` in this embedding, with no error
channel in its type) and returns the member's assigned numeric value, the
value paired with the member's declaration index. -/
theorem fromEnum_total_value (decl : List Int) (m : Fin decl.length) :
    fromEnum decl m = decl.get m :=
  fromEnum_eq_get decl m

/-- C4: member values need not be unique at the macro level — a declaration
list with repeated values is accepted by this model, exactly as the matcher
imposes no uniqueness on `$constant` — and on any declared value `try_from`
returns the first-declared member with that value (`List.indexOf` is the
smallest declaration index holding `v`). -/
theorem tryFrom_first_match_wins (decl : List Int) (v : Int) (hv : v ∈ decl) :
    tryFrom decl v = .ok (decl.indexOf v) :=
  tryFrom_mem_indexOf decl v hv

/-- Witness for C4 on a declaration whose two members share the value `7`:
`try_from 7` returns member index `0`, the first-declared one. -/
theorem tryFrom_first_match_wins_witness :
    (7 : Int) ∈ [(7 : Int), 7] ∧
    tryFrom [(7 : Int), 7] 7 = .ok ([(7 : Int), 7].indexOf 7) ∧
    [(7 : Int), 7].indexOf 7 = 0 :=
  ⟨by decide, tryFrom_first_match_wins [(7 : Int), 7] 7 (by decide), by decide⟩

/-- C5: concrete scenario for `#[repr(i64)] enum Lol { Kek = 14, Wow = 87 }`:
`from(Kek) == 14`, `try_from(87) == Ok(Wow)`, `try_from(88) == Err(88)`. -/
theorem lol_concrete_scenario :
    fromEnum LolDecl LolKek = 14 ∧
    tryFrom LolDecl 87 = .ok LolWow.val ∧
    tryFrom LolDecl 88 = .error 88 :=
  ⟨rfl, rfl, rfl⟩

/-- C6: concrete scenario for
`#[repr(i16)] pub enum PublicEnum { Zero = 0, Lol = -1 }`: negative values
are handled exactly — `from(Lol) == -1`, `try_from(-1) == Ok(Lol)`,
`try_from(2) == Err(2)`. -/
theorem publicEnum_concrete_scenario :
    fromEnum PublicEnumDecl PublicEnumLol = -1 ∧
    tryFrom PublicEnumDecl (-1) = .ok PublicEnumLol.val ∧
    tryFrom PublicEnumDecl 2 = .error 2 :=
  ⟨rfl, rfl, rfl⟩

/-- C7: a member list written with a trailing comma parses to exactly the
same descriptor as the same list without one (and both parses succeed), so
the emitted enum and conversions — functions of that descriptor alone — are
identical for the two invocations. -/
theorem trailing_comma_equivalent (ms : List (String × Int)) :
    parseMembers (renderMembers ms ++ [Tok.comma]) =
      parseMembers (renderMembers ms) ∧
    parseMembers (renderMembers ms) = some ms := by
  cases ms with
  | nil => exact ⟨rfl, rfl⟩
  | cons p rest =>
    obtain ⟨n, v⟩ := p
    constructor
    · simp [renderMembers, parseMembers, List.cons_append,
        parseTail_renderSep, parseTail_renderSep_comma]
    · simp [renderMembers, parseMembers, parseTail_renderSep]

/-- C8: for the same representation, member names and member values, the
`numeric_enum_ident!` conversions (values given as named constants resolved
through `env`) agree with the `numeric_enum!` conversions on the resolved
value list, in both directions, on every input. -/
theorem ident_variant_equiv (env : String → Int) (decl : List String)
    (x : Int) (m : Fin decl.length) (hm : m.val < (decl.map env).length) :
    tryFromIdent env decl x = tryFrom (decl.map env) x ∧
    fromEnumIdent env decl m = fromEnum (decl.map env) ⟨m.val, hm⟩ :=
  ⟨tryFromIdent_eq_tryFrom env decl x, fromEnumIdent_eq_fromEnum env decl m hm⟩

/-- Witness for C8 at the documented `Lol2` declaration
(`Kek = KEK`, `Wow = WOW` with `KEK = 0`, `WOW = 1`), input `1` and member
`Kek`. -/
theorem ident_variant_equiv_witness :
    (0 : Nat) < ((["KEK", "WOW"].map KekWowEnv).length) ∧
    (tryFromIdent KekWowEnv ["KEK", "WOW"] 1 =
       tryFrom (["KEK", "WOW"].map KekWowEnv) 1 ∧
     fromEnumIdent KekWowEnv ["KEK", "WOW"] ⟨0, by decide⟩ =
       fromEnum (["KEK", "WOW"].map KekWowEnv) ⟨0, by decide⟩) :=
  ⟨by decide,
   ident_variant_equiv KekWowEnv ["KEK", "WOW"] 1 ⟨0, by decide⟩ (by decide)⟩

/-- C9: both generated conversions are deterministic pure functions — equal
inputs give equal results.  In this embedding they are total functions of
the declaration and the argument alone, so no state outside the return value
is read or modified. -/
theorem conversions_deterministic (decl : List Int) (x1 x2 : Int)
    (m1 m2 : Fin decl.length) (hx : x1 = x2) (hm : m1 = m2) :
    tryFrom decl x1 = tryFrom decl x2 ∧ fromEnum decl m1 = fromEnum decl m2 :=
  ⟨hx ▸ rfl, hm ▸ rfl⟩

/-- Witness for C9 at the enum `Lol`, input `3` and member `Kek`. -/
theorem conversions_deterministic_witness :
    (3 : Int) = 3 ∧
    (tryFrom LolDecl 3 = tryFrom LolDecl 3 ∧
     fromEnum LolDecl LolKek = fromEnum LolDecl LolKek) :=
  ⟨rfl, conversions_deterministic LolDecl 3 3 LolKek LolKek rfl rfl⟩

/-- C10: inverse round trip — whenever `try_from(x)` returns `Ok(m)`, the
generated `from` maps `m` back to exactly `x`. -/
theorem tryFrom_ok_fromEnum (decl : List Int) (x : Int) (i : Nat)
    (h : tryFrom decl x = .ok i) :
    ∃ hi : i < decl.length, fromEnum decl ⟨i, hi⟩ = x := by
  obtain ⟨hi, hget⟩ := tryFrom_ok_inv decl x i h
  exact ⟨hi, by rw [fromEnum_eq_get]; exact hget⟩

/-- Witness for C10: `try_from 87` on `Lol` returns `Ok` of member index `1`
and `from` maps that member back to `87`. -/
theorem tryFrom_ok_fromEnum_witness :
    tryFrom LolDecl 87 = .ok 1 ∧
    ∃ hi : (1 : Nat) < LolDecl.length, fromEnum LolDecl ⟨1, hi⟩ = 87 :=
  ⟨rfl, tryFrom_ok_fromEnum LolDecl 87 1 rfl⟩

end NumericEnumMacro
